import Mathlib

/-!
# Verification of the micrograd scalar autodiff engine

A shallow embedding of `micrograd/engine.py`.  A Python `Value` object is a
vertex in a growing computation graph; we model the heap of live `Value`
objects as a list (arena) of nodes indexed by creation order.  Each node
stores its `data`, its `grad`, and an `Op` tag recording which operation
built it and which operand indices its `_backward` closure captured.
Python floats are modelled as rationals; Python exceptions
(`AssertionError` from the `isinstance` assert in `__pow__`,
`ZeroDivisionError` from `0 ** n` with `n < 0`) are modelled with `Except`.
-/

namespace Micrograd

/-- The operation tag of a node: which constructor in `engine.py` built it
and which operand indices the attached `_backward` closure captured.
`leaf` is a bare `Value(data)` whose `_backward` is the no-op lambda. -/
inductive Op where
  | leaf : Op
  | add : Nat → Nat → Op
  | mul : Nat → Nat → Op
  | pow : Nat → Int → Op
  | relu : Nat → Op
deriving DecidableEq, Repr

/-- One `Value` object: `data`, `grad` (0.0 at construction), and the
operation that produced it (determining both `_prev` and `_backward`). -/
structure Node where
  data : Rat
  grad : Rat
  op : Op
deriving DecidableEq, Repr

/-- The heap of live `Value` objects, indexed by creation order. -/
abbrev St := List Node

def defaultNode : Node := ⟨0, 0, Op.leaf⟩

def nodeOf (st : St) (i : Nat) : Node := st.getD i defaultNode

def dataOf (st : St) (i : Nat) : Rat := (nodeOf st i).data

def gradOf (st : St) (i : Nat) : Rat := (nodeOf st i).grad

def opOf (st : St) (i : Nat) : Op := (nodeOf st i).op

/-- Overwrite the `grad` field of node `i` (Python `v.grad = g`). -/
def setGrad (st : St) (i : Nat) (g : Rat) : St :=
  st.set i { nodeOf st i with grad := g }

/-- Accumulate into the `grad` field of node `i` (Python `v.grad += d`). -/
def addGrad (st : St) (i : Nat) (d : Rat) : St :=
  setGrad st i (gradOf st i + d)

/-- The operand tuple `_children` exactly as the closure captured it,
duplicates kept: `(self, other)` for add/mul, `(self,)` for pow/relu. -/
def prevDup : Op → List Nat
  | Op.leaf => []
  | Op.add a b => [a, b]
  | Op.mul a b => [a, b]
  | Op.pow a _ => [a]
  | Op.relu a => [a]

/-- `self._prev = set(_children)`: the parent collection as a set, so a
duplicated operand appears once.  Iteration order is unspecified in
Python; we fix operand order. -/
def prevO : Op → List Nat
  | Op.leaf => []
  | Op.add a b => if a = b then [a] else [a, b]
  | Op.mul a b => if a = b then [a] else [a, b]
  | Op.pow a _ => [a]
  | Op.relu a => [a]

/-- The `_prev` set of node `i`. -/
def prevOf (st : St) (i : Nat) : List Nat := prevO (opOf st i)

/-- Python's `x ** k` on numbers: raises `ZeroDivisionError` when `x` is
zero and `k` negative, otherwise the exact power. -/
def pyPow (q : Rat) (k : Int) : Option Rat :=
  if q = 0 ∧ k < 0 then none else some (q ^ k)

/-- Python exceptions that `engine.py` can raise. -/
inductive PyErr where
  | assertionError : PyErr
  | zeroDivisionError : PyErr
deriving DecidableEq, Repr

/-- The argument passed to `__pow__`: a `Value` node or a plain number
(an `int`/`float` exponent, modelled by its integer value). -/
inductive PowExp where
  | node : Nat → PowExp
  | num : Int → PowExp

/-- Append a fresh node (a new `Value` object) and return its index. -/
def mkNode (st : St) (d : Rat) (o : Op) : Nat × St :=
  (st.length, st ++ [⟨d, 0, o⟩])

/-- `Value(data)`: a leaf node with `grad = 0` and no-op `_backward`. -/
def valueNew (st : St) (d : Rat) : Nat × St := mkNode st d Op.leaf

/-- `Value.__add__` on two nodes: `out = Value(self.data + other.data,
(self, other))` with the additive `_backward`. -/
def addVal (st : St) (a b : Nat) : Nat × St :=
  mkNode st (dataOf st a + dataOf st b) (Op.add a b)

/-- `Value.__mul__` on two nodes. -/
def mulVal (st : St) (a b : Nat) : Nat × St :=
  mkNode st (dataOf st a * dataOf st b) (Op.mul a b)

/-- `Value.__mul__` with a plain number: the number is first wrapped in a
fresh leaf `Value(c)` and then multiplied. -/
def mulConstVal (st : St) (a : Nat) (c : Rat) : Nat × St :=
  let p := valueNew st c
  mulVal p.2 a p.1

/-- `Value.relu`: `out = Value(0 if self.data < 0 else self.data, (self,))`. -/
def reluVal (st : St) (a : Nat) : Nat × St :=
  mkNode st (if dataOf st a < 0 then 0 else dataOf st a) (Op.relu a)

/-- `Value.__pow__`: asserts the exponent is a plain `int`/`float`
(raising `AssertionError` on a node), then computes `self.data ** other`
(raising `ZeroDivisionError` on a zero base with negative exponent). -/
def powVal (st : St) (a : Nat) (e : PowExp) : Except PyErr (Nat × St) :=
  match e with
  | PowExp.node _ => Except.error PyErr.assertionError
  | PowExp.num k =>
    match pyPow (dataOf st a) k with
    | none => Except.error PyErr.zeroDivisionError
    | some d => Except.ok (mkNode st d (Op.pow a k))

/-- `Value.__neg__`: `self * -1`, reusing `__mul__` with a wrapped constant. -/
def negVal (st : St) (a : Nat) : Nat × St := mulConstVal st a (-1)

/-- `Value.__sub__`: `self + (-other)`, reusing `__add__` and `__neg__`. -/
def subVal (st : St) (a b : Nat) : Nat × St :=
  let n := negVal st b
  addVal n.2 a n.1

/-- `Value.__truediv__`: `self * other ** -1`, reusing `__mul__` and
`__pow__`. -/
def divVal (st : St) (a b : Nat) : Except PyErr (Nat × St) :=
  match powVal st b (PowExp.num (-1)) with
  | Except.error e => Except.error e
  | Except.ok p => Except.ok (mulVal p.2 a p.1)

/-- One invocation of `v._backward()`: the closure attached by the
operation that built `v`, updating the operands' `grad` fields in the
source's statement order. -/
def backStep (st : St) (v : Nat) : Except PyErr St :=
  match opOf st v with
  | Op.leaf => Except.ok st
  | Op.add a b =>
    let st1 := addGrad st a (gradOf st v * 1)
    Except.ok (addGrad st1 b (gradOf st1 v * 1))
  | Op.mul a b =>
    let st1 := addGrad st a (gradOf st v * dataOf st b)
    Except.ok (addGrad st1 b (gradOf st1 v * dataOf st1 a))
  | Op.pow a k =>
    match pyPow (dataOf st a) (k - 1) with
    | none => Except.error PyErr.zeroDivisionError
    | some p => Except.ok (addGrad st a (gradOf st v * ((k : Rat) * p)))
  | Op.relu a =>
    Except.ok (addGrad st a (gradOf st v * (if 0 < dataOf st v then 1 else 0)))

/-- The recursive `build_topo` of `Value.backward`: if `v` is unvisited,
mark it visited, recurse into its `_prev` set, then append `v` to `topo`.
The accumulator is `(visited, topo)`.  Recursion is paid for by fuel;
since an operation's output can only reference already-existing nodes,
parents have strictly smaller indices and fuel `v + 1` is enough. -/
def dfsNode (st : St) : Nat → Nat → List Nat × List Nat → List Nat × List Nat
  | 0, _, acc => acc
  | fuel + 1, v, acc =>
    if v ∈ acc.1 then acc
    else
      let acc1 := List.foldl (fun a c => dfsNode st fuel c a)
        (v :: acc.1, acc.2) (prevOf st v)
      (acc1.1, acc1.2 ++ [v])

/-- `build_topo(self)` started from empty `visited` and `topo`. -/
def buildTopo (st : St) (root : Nat) : List Nat × List Nat :=
  dfsNode st (root + 1) root ([], [])

/-- The reverse loop of `Value.backward`: `for v in reversed(topo):
v._backward()`, stopping if a closure raises. -/
def goBack (st : St) : List Nat → Except PyErr St
  | [] => Except.ok st
  | v :: rest =>
    match backStep st v with
    | Except.error e => Except.error e
    | Except.ok st1 => goBack st1 rest

/-- `Value.backward`: build the topological order, seed `self.grad = 1`,
then run every recorded `_backward` in reverse topological order. -/
def backward (st : St) (root : Nat) : Except PyErr St :=
  goBack (setGrad st root 1) (buildTopo st root).2.reverse

/-- The gradient of node `i` after `backward` from `root`. -/
def gradAfter (st : St) (root i : Nat) : Except PyErr Rat :=
  Except.map (fun s => gradOf s i) (backward st root)

/-- The sequence of nodes whose `_backward` closure actually runs when
the reverse loop processes `l`: all of `l` unless a closure raises, in
which case the loop aborts after the raising node. -/
def invokedSeq (st : St) : List Nat → List Nat
  | [] => []
  | v :: rest =>
    match backStep st v with
    | Except.error _ => [v]
    | Except.ok st1 => v :: invokedSeq st1 rest

/-- The graph is acyclic by construction: every node references only
nodes created before it, so captured operand indices are smaller. -/
def WF (st : St) : Prop :=
  ∀ i, i < st.length → ∀ p ∈ prevDup (opOf st i), p < i

instance (st : St) : Decidable (WF st) :=
  Nat.decidableBallLT st.length fun i _ => ∀ p ∈ prevDup (opOf st i), p < i

/-- Reachability from a root through the `_prev` sets: the nodes the
backward traversal can see. -/
inductive Reach (st : St) : Nat → Nat → Prop where
  | refl (i : Nat) : Reach st i i
  | step {i j k : Nat} : Reach st i j → k ∈ prevOf st j → Reach st i k

/-- A forward sequence is dependency-ordered when every recorded node's
parents appear strictly before it. -/
def OrderedList (st : St) (t : List Nat) : Prop :=
  ∀ l1 i l2, t = l1 ++ i :: l2 → ∀ p ∈ prevOf st i, p ∈ l1

/-! ## Basic lemmas about the state accessors, parents and reachability -/

theorem nodeOf_set : ∀ (st : St) (i j : Nat) (n : Node),
    nodeOf (st.set i n) j = if i = j ∧ j < st.length then n else nodeOf st j := by
  intro st
  induction st with
  | nil => intro i j n; simp [nodeOf]
  | cons a l ih =>
    intro i j n
    cases i with
    | zero =>
      cases j with
      | zero => simp [nodeOf]
      | succ j => simp [nodeOf]
    | succ i =>
      cases j with
      | zero => simp [nodeOf]
      | succ j =>
        have h := ih i j n
        simp only [List.set, nodeOf, List.getD_cons_succ, List.length_cons] at h ⊢
        rw [h]
        by_cases hij : i = j
        · subst hij
          by_cases hl : i < l.length
          · rw [if_pos ⟨rfl, hl⟩, if_pos ⟨rfl, by omega⟩]
          · rw [if_neg (by omega), if_neg (by omega)]
        · rw [if_neg (by omega), if_neg (by omega)]

theorem length_setGrad (st : St) (i : Nat) (g : Rat) :
    (setGrad st i g).length = st.length := by
  simp [setGrad]

theorem dataOf_setGrad (st : St) (i j : Nat) (g : Rat) :
    dataOf (setGrad st i g) j = dataOf st j := by
  unfold dataOf setGrad
  rw [nodeOf_set]
  split
  · rename_i h; rcases h with ⟨h1, _⟩; subst h1; rfl
  · rfl

theorem opOf_setGrad (st : St) (i j : Nat) (g : Rat) :
    opOf (setGrad st i g) j = opOf st j := by
  unfold opOf setGrad
  rw [nodeOf_set]
  split
  · rename_i h; rcases h with ⟨h1, _⟩; subst h1; rfl
  · rfl

theorem gradOf_setGrad_self (st : St) (i : Nat) (g : Rat) (h : i < st.length) :
    gradOf (setGrad st i g) i = g := by
  unfold gradOf setGrad
  rw [nodeOf_set, if_pos ⟨rfl, h⟩]

theorem gradOf_setGrad_ne (st : St) (i j : Nat) (g : Rat) (h : i ≠ j) :
    gradOf (setGrad st i g) j = gradOf st j := by
  unfold gradOf setGrad
  rw [nodeOf_set, if_neg (by tauto)]

theorem mem_prevO_iff (o : Op) (p : Nat) : p ∈ prevO o ↔ p ∈ prevDup o := by
  cases o <;> simp [prevO, prevDup]
  case add a b => split <;> rename_i h <;> simp <;> omega
  case mul a b => split <;> rename_i h <;> simp <;> omega

theorem opOf_oob (st : St) (i : Nat) (h : st.length ≤ i) : opOf st i = Op.leaf := by
  unfold opOf nodeOf
  rw [List.getD_eq_default]
  · rfl
  · omega

theorem prev_lt (st : St) (hwf : WF st) (i : Nat) : ∀ p ∈ prevOf st i, p < i := by
  intro p hp
  rw [prevOf, mem_prevO_iff] at hp
  by_cases h : i < st.length
  · exact hwf i h p hp
  · rw [opOf_oob st i (by omega)] at hp
    simp [prevDup] at hp

theorem reach_step1 (st : St) {v c : Nat} (h : c ∈ prevOf st v) : Reach st v c :=
  Reach.step (Reach.refl v) h

theorem reach_trans (st : St) {a b c : Nat} (h1 : Reach st a b) (h2 : Reach st b c) :
    Reach st a c := by
  induction h2 with
  | refl => exact h1
  | step _ hmem ih => exact Reach.step ih hmem

theorem reach_le (st : St) (hwf : WF st) {v x : Nat} (h : Reach st v x) : x ≤ v := by
  induction h with
  | refl => exact le_refl _
  | step _ hmem ih =>
    have := prev_lt st hwf _ _ hmem
    omega


/-! ## Correctness of the depth-first topological sort -/

/-- Invariant of the DFS accumulator `(vis, topo)` at stack bound `b`:
`topo` is duplicate-free bookkeeping of fully processed nodes, every
recorded node is visited, parents of recorded nodes appear before them,
and every visited-but-unrecorded (in-progress) node has index `>= b`. -/
structure DfsPre (st : St) (b : Nat) (vis topo : List Nat) : Prop where
  nodup : topo.Nodup
  sub : ∀ x ∈ topo, x ∈ vis
  ord : OrderedList st topo
  stack : ∀ x ∈ vis, x ∈ topo ∨ b ≤ x

/-- What one DFS call (from sources satisfying `src`) guarantees:
the invariant is re-established, `topo` grows by fresh nodes reachable
from a source, `visited` only grows, newly visited nodes are recorded,
and every source ends up recorded. -/
structure DfsPost (st : St) (b : Nat) (vis topo : List Nat) (src : Nat → Prop)
    (res : List Nat × List Nat) : Prop where
  pre : DfsPre st b res.1 res.2
  ext : ∃ d, res.2 = topo ++ d ∧ (∀ x ∈ d, x ∉ vis) ∧ ∀ x ∈ d, ∃ s, src s ∧ Reach st s x
  visMono : ∀ x ∈ vis, x ∈ res.1
  visNew : ∀ x ∈ res.1, x ∈ res.2 ∨ x ∈ vis
  compl : ∀ s, src s → s ∈ res.2

theorem append_singleton_split {α : Type} {l l1 l2 : List α} {i v : α}
    (h : l ++ [v] = l1 ++ i :: l2) :
    (l1 = l ∧ i = v ∧ l2 = []) ∨ ∃ l3, l = l1 ++ i :: l3 ∧ l2 = l3 ++ [v] := by
  rcases List.eq_nil_or_concat l2 with h2 | ⟨l3, w, h2⟩
  · subst h2
    have h3 := List.append_inj' h (by simp)
    exact Or.inl ⟨h3.1.symm, by simpa using (List.cons.inj h3.2).1.symm, rfl⟩
  · rw [List.concat_eq_append] at h2
    subst h2
    rw [show l1 ++ i :: (l3 ++ [w]) = (l1 ++ i :: l3) ++ [w] by simp] at h
    have h3 := List.append_inj' h (by simp)
    exact Or.inr ⟨l3, h3.1, by simpa using ((List.cons.inj h3.2).1 : v = w).symm⟩

theorem orderedList_nil (st : St) : OrderedList st [] := by
  intro l1 i l2 h
  exact absurd h.symm (by simp)

theorem orderedList_append_singleton {st : St} {t : List Nat} {v : Nat}
    (ht : OrderedList st t) (hv : ∀ p ∈ prevOf st v, p ∈ t) :
    OrderedList st (t ++ [v]) := by
  intro l1 i l2 h p hp
  rcases append_singleton_split h with ⟨h1, h2, _⟩ | ⟨l3, h1, _⟩
  · subst h1; subst h2; exact hv p hp
  · exact ht l1 i l3 h1 p hp

theorem orderedList_mem_prev {st : St} {t : List Nat}
    (ht : OrderedList st t) {i : Nat} (hi : i ∈ t) : ∀ p ∈ prevOf st i, p ∈ t := by
  intro p hp
  rcases List.append_of_mem hi with ⟨s, u, hsu⟩
  have := ht s i u hsu p hp
  rw [hsu]
  simp [this]

theorem mem_of_reach {st : St} {t : List Nat} (ht : OrderedList st t)
    {i x : Nat} (hr : Reach st i x) (hi : i ∈ t) : x ∈ t := by
  induction hr with
  | refl => exact hi
  | step _ hmem ih => exact orderedList_mem_prev ht ih _ hmem

theorem dfsFold_spec (st : St) (fuel : Nat)
    (IH : ∀ v vis topo b, DfsPre st b vis topo → v < b → v < fuel →
      DfsPost st b vis topo (fun s => s = v) (dfsNode st fuel v (vis, topo))) :
    ∀ cs vis topo b, DfsPre st b vis topo → (∀ c ∈ cs, c < b ∧ c < fuel) →
      DfsPost st b vis topo (fun s => s ∈ cs)
        (List.foldl (fun a c => dfsNode st fuel c a) (vis, topo) cs) := by
  intro cs
  induction cs with
  | nil =>
    intro vis topo b hpre _
    exact ⟨hpre, ⟨[], by simp, by simp, by simp⟩, fun x hx => hx,
      fun x hx => Or.inr hx, by simp⟩
  | cons c cs ih =>
    intro vis topo b hpre hlt
    simp only [List.foldl_cons]
    have h1 := IH c vis topo b hpre (hlt c (by simp)).1 (hlt c (by simp)).2
    have heta : dfsNode st fuel c (vis, topo) =
        ((dfsNode st fuel c (vis, topo)).1, (dfsNode st fuel c (vis, topo)).2) := rfl
    rw [heta]
    have h2 := ih (dfsNode st fuel c (vis, topo)).1 (dfsNode st fuel c (vis, topo)).2 b
      h1.pre (fun u hu => hlt u (by simp [hu]))
    rcases h1.ext with ⟨d1, hd1, hf1, hr1⟩
    rcases h2.ext with ⟨d2, hd2, hf2, hr2⟩
    refine ⟨h2.pre, ⟨d1 ++ d2, ?_, ?_, ?_⟩, ?_, ?_, ?_⟩
    · rw [hd2, hd1, List.append_assoc]
    · intro x hx
      rcases List.mem_append.1 hx with hx | hx
      · exact hf1 x hx
      · intro hxv
        exact hf2 x hx (h1.visMono x hxv)
    · intro x hx
      rcases List.mem_append.1 hx with hx | hx
      · rcases hr1 x hx with ⟨s, hs, hrs⟩
        exact ⟨s, by simp [hs], hrs⟩
      · rcases hr2 x hx with ⟨s, hs, hrs⟩
        exact ⟨s, by simp [hs], hrs⟩
    · intro x hx
      exact h2.visMono x (h1.visMono x hx)
    · intro x hx
      rcases h2.visNew x hx with hx2 | hx2
      · exact Or.inl hx2
      · rcases h1.visNew x hx2 with hx3 | hx3
        · exact Or.inl (by rw [hd2]; simp [hx3])
        · exact Or.inr hx3
    · intro s hs
      rcases List.mem_cons.1 hs with hs | hs
      · subst hs
        have := h1.compl s rfl
        rw [hd2]
        simp [this]
      · exact h2.compl s hs

theorem dfsNode_spec (st : St) (hwf : WF st) :
    ∀ fuel v vis topo b, DfsPre st b vis topo → v < b → v < fuel →
      DfsPost st b vis topo (fun s => s = v) (dfsNode st fuel v (vis, topo)) := by
  intro fuel
  induction fuel with
  | zero => intro v _ _ _ _ _ hf; omega
  | succ fuel ihf =>
    intro v vis topo b hpre hvb hvf
    by_cases hv : v ∈ vis
    · have hvt : v ∈ topo := by
        rcases hpre.stack v hv with h | h
        · exact h
        · omega
      simp only [dfsNode, if_pos (show v ∈ (vis, topo).1 from hv)]
      exact ⟨hpre, ⟨[], by simp, by simp, by simp⟩, fun x hx => hx,
        fun x hx => Or.inr hx, fun s hs => by subst hs; exact hvt⟩
    · simp only [dfsNode, if_neg (show ¬ v ∈ (vis, topo).1 from hv)]
      have hpre2 : DfsPre st v (v :: vis) topo :=
        ⟨hpre.nodup, fun x hx => by simp [hpre.sub x hx], hpre.ord, by
          intro x hx
          rcases List.mem_cons.1 hx with hx | hx
          · subst hx; exact Or.inr (le_refl x)
          · rcases hpre.stack x hx with h | h
            · exact Or.inl h
            · exact Or.inr (by omega)⟩
      have hcs : ∀ c ∈ prevOf st v, c < v ∧ c < fuel := fun c hc => by
        have := prev_lt st hwf v c hc
        omega
      have hfold := dfsFold_spec st fuel
        (fun u vis1 topo1 b1 h1 h2 h3 => ihf u vis1 topo1 b1 h1 h2 h3)
        (prevOf st v) (v :: vis) topo v hpre2 hcs
      rcases hfold.ext with ⟨d, hd, hfresh, hreach⟩
      have hvr2 : v ∉ (List.foldl (fun a c => dfsNode st fuel c a) (v :: vis, topo)
          (prevOf st v)).2 := by
        rw [hd]
        intro hmem
        rcases List.mem_append.1 hmem with h | h
        · exact hv (hpre.sub v h)
        · exact hfresh v h (by simp)
      refine ⟨⟨?_, ?_, ?_, ?_⟩, ⟨d ++ [v], ?_, ?_, ?_⟩, ?_, ?_, ?_⟩
      · rw [List.nodup_append]
        exact ⟨hfold.pre.nodup, List.nodup_singleton v,
          fun x hx hxv => by rw [List.mem_singleton] at hxv; subst hxv; exact hvr2 hx⟩
      · intro x hx
        rcases List.mem_append.1 hx with hx | hx
        · exact hfold.pre.sub x hx
        · rw [List.mem_singleton] at hx
          subst hx
          exact hfold.visMono x (by simp)
      · exact orderedList_append_singleton hfold.pre.ord
          (fun p hp => hfold.compl p hp)
      · intro x hx
        rcases hfold.visNew x hx with hx2 | hx2
        · exact Or.inl (by simp [hx2])
        · rcases List.mem_cons.1 hx2 with hx3 | hx3
          · subst hx3; exact Or.inl (by simp)
          · rcases hpre.stack x hx3 with h | h
            · exact Or.inl (by rw [hd]; simp [h])
            · exact Or.inr h
      · rw [hd, List.append_assoc]
      · intro x hx
        rcases List.mem_append.1 hx with hx | hx
        · intro hxv
          exact hfresh x hx (by simp [hxv])
        · rw [List.mem_singleton] at hx
          subst hx
          exact hv
      · intro x hx
        rcases List.mem_append.1 hx with hx | hx
        · rcases hreach x hx with ⟨s, hs, hrs⟩
          exact ⟨v, rfl, reach_trans st (reach_step1 st hs) hrs⟩
        · rw [List.mem_singleton] at hx
          exact ⟨v, rfl, by rw [hx]; exact Reach.refl v⟩
      · intro x hx
        exact hfold.visMono x (by simp [hx])
      · intro x hx
        rcases hfold.visNew x hx with hx2 | hx2
        · exact Or.inl (by simp [hx2])
        · rcases List.mem_cons.1 hx2 with hx3 | hx3
          · subst hx3; exact Or.inl (by simp)
          · exact Or.inr hx3
      · intro s hs
        subst hs
        simp

/-- Summary of the traversal: from an empty accumulator, `build_topo`
records exactly the nodes reachable from the root, each exactly once, in
an order where parents precede their consumers. -/
theorem buildTopo_spec (st : St) (root : Nat) (hwf : WF st) :
    (buildTopo st root).2.Nodup ∧
    (∀ x, x ∈ (buildTopo st root).2 ↔ Reach st root x) ∧
    OrderedList st (buildTopo st root).2 := by
  have hpre : DfsPre st (root + 1) [] [] :=
    ⟨List.nodup_nil, by simp, orderedList_nil st, by simp⟩
  have h := dfsNode_spec st hwf (root + 1) root [] [] (root + 1) hpre
    (by omega) (by omega)
  rcases h.ext with ⟨d, hd, _, hreach⟩
  simp only [buildTopo]
  refine ⟨h.pre.nodup, fun x => ⟨?_, ?_⟩, h.pre.ord⟩
  · intro hx
    rcases hreach x (by rw [hd] at hx; simpa using hx) with ⟨s, hs, hrs⟩
    rw [hs] at hrs
    exact hrs
  · intro hr
    exact mem_of_reach h.pre.ord hr (h.compl root rfl)

/-! ## Frame lemmas for the backward pass -/

theorem length_addGrad (st : St) (i : Nat) (d : Rat) :
    (addGrad st i d).length = st.length := length_setGrad st i _

theorem dataOf_addGrad (st : St) (i j : Nat) (d : Rat) :
    dataOf (addGrad st i d) j = dataOf st j := dataOf_setGrad st i j _

theorem opOf_addGrad (st : St) (i j : Nat) (d : Rat) :
    opOf (addGrad st i d) j = opOf st j := opOf_setGrad st i j _

theorem gradOf_addGrad_ne (st : St) (i j : Nat) (d : Rat) (h : i ≠ j) :
    gradOf (addGrad st i d) j = gradOf st j := gradOf_setGrad_ne st i j _ h

theorem gradOf_addGrad_self (st : St) (i : Nat) (d : Rat) (h : i < st.length) :
    gradOf (addGrad st i d) i = gradOf st i + d := gradOf_setGrad_self st i _ h

/-- A single `_backward` invocation never touches `data`, `_prev` or the
heap size. -/
theorem backStep_preserve {st : St} {v : Nat} {st2 : St}
    (h : backStep st v = Except.ok st2) :
    st2.length = st.length ∧ ∀ i, dataOf st2 i = dataOf st i ∧ opOf st2 i = opOf st i := by
  rcases hop : opOf st v with _ | ⟨a, b⟩ | ⟨a, b⟩ | ⟨a, k⟩ | a <;>
    simp only [backStep, hop, Except.ok.injEq] at h
  · rw [← h]
    exact ⟨rfl, fun i => ⟨rfl, rfl⟩⟩
  · rw [← h]
    refine ⟨by simp [length_addGrad], fun i => ⟨?_, ?_⟩⟩
    · rw [dataOf_addGrad, dataOf_addGrad]
    · rw [opOf_addGrad, opOf_addGrad]
  · rw [← h]
    refine ⟨by simp [length_addGrad], fun i => ⟨?_, ?_⟩⟩
    · rw [dataOf_addGrad, dataOf_addGrad]
    · rw [opOf_addGrad, opOf_addGrad]
  · rcases hp : pyPow (dataOf st a) (k - 1) with _ | p <;> rw [hp] at h
    · exact absurd h (by simp)
    · simp only [Except.ok.injEq] at h
      rw [← h]
      exact ⟨length_addGrad st a _, fun i => ⟨dataOf_addGrad st a i _, opOf_addGrad st a i _⟩⟩
  · rw [← h]
    exact ⟨length_addGrad st a _, fun i => ⟨dataOf_addGrad st a i _, opOf_addGrad st a i _⟩⟩

/-- A `_backward` invocation only writes the `grad` fields of the
operands its closure captured. -/
theorem backStep_grad_off {st : St} {v : Nat} {st2 : St}
    (h : backStep st v = Except.ok st2) :
    ∀ i, i ∉ prevDup (opOf st v) → gradOf st2 i = gradOf st i := by
  intro i hi
  rcases hop : opOf st v with _ | ⟨a, b⟩ | ⟨a, b⟩ | ⟨a, k⟩ | a <;>
    rw [hop] at hi <;> simp only [backStep, hop, Except.ok.injEq] at h <;> simp [prevDup] at hi
  · rw [← h]
  · rw [← h, gradOf_addGrad_ne _ _ _ _ (by tauto), gradOf_addGrad_ne _ _ _ _ (by tauto)]
  · rw [← h, gradOf_addGrad_ne _ _ _ _ (by tauto), gradOf_addGrad_ne _ _ _ _ (by tauto)]
  · rcases hp : pyPow (dataOf st a) (k - 1) with _ | p <;> rw [hp] at h
    · exact absurd h (by simp)
    · simp only [Except.ok.injEq] at h
      rw [← h, gradOf_addGrad_ne _ _ _ _ (by omega)]
  · rw [← h, gradOf_addGrad_ne _ _ _ _ (by omega)]

/-- The reverse loop never touches `data`, `_prev` or the heap size, and
leaves alone the `grad` of any node that is no processed node's operand. -/
theorem goBack_frame : ∀ (l : List Nat) (st st2 : St), goBack st l = Except.ok st2 →
    st2.length = st.length ∧ (∀ i, dataOf st2 i = dataOf st i ∧ opOf st2 i = opOf st i) ∧
    (∀ i, (∀ v ∈ l, i ∉ prevDup (opOf st v)) → gradOf st2 i = gradOf st i) := by
  intro l
  induction l with
  | nil =>
    intro st st2 h
    simp only [goBack, Except.ok.injEq] at h
    rw [← h]
    exact ⟨rfl, fun i => ⟨rfl, rfl⟩, fun i _ => rfl⟩
  | cons v rest ih =>
    intro st st2 h
    simp only [goBack] at h
    rcases hb : backStep st v with e | st1 <;> rw [hb] at h
    · exact absurd h (by simp)
    · have hpre := backStep_preserve hb
      have hrest := ih st1 st2 h
      refine ⟨hrest.1.trans hpre.1, fun i => ⟨(hrest.2.1 i).1.trans (hpre.2 i).1,
        (hrest.2.1 i).2.trans (hpre.2 i).2⟩, ?_⟩
      intro i hi
      have h1 : gradOf st2 i = gradOf st1 i := by
        refine hrest.2.2 i (fun u hu => ?_)
        rw [(hpre.2 u).2]
        exact hi u (by simp [hu])
      rw [h1]
      exact backStep_grad_off hb i (hi v (by simp))

/-- When the reverse loop completes, every listed node's closure ran. -/
theorem invokedSeq_of_ok : ∀ (l : List Nat) (st st2 : St),
    goBack st l = Except.ok st2 → invokedSeq st l = l := by
  intro l
  induction l with
  | nil => intro st st2 _; rfl
  | cons v rest ih =>
    intro st st2 h
    simp only [goBack] at h
    rcases hb : backStep st v with e | st1 <;> rw [hb] at h
    · exact absurd h (by simp)
    · simp only [invokedSeq, hb]
      rw [ih st1 st2 h]

/-! ## Claim theorems -/

/-- C10: calling `backward` from any root of an acyclic graph mutates
only gradient fields: every node's `data` and `_prev` (and the heap
size) are identical before and after the pass, and the gradients of
nodes not reachable from the root are unchanged as well. -/
theorem backward_mutates_only_gradients (st : St) (root : Nat) (st2 : St) (hwf : WF st)
    (h : backward st root = Except.ok st2) :
    st2.length = st.length ∧
    (∀ i, dataOf st2 i = dataOf st i ∧ opOf st2 i = opOf st i ∧ prevOf st2 i = prevOf st i) ∧
    (∀ i, ¬ Reach st root i → gradOf st2 i = gradOf st i) := by
  have hb : goBack (setGrad st root 1) (buildTopo st root).2.reverse = Except.ok st2 := h
  have hg := goBack_frame _ _ _ hb
  have hspec := buildTopo_spec st root hwf
  refine ⟨hg.1.trans (length_setGrad st root 1), fun i => ?_, fun i hri => ?_⟩
  · refine ⟨(hg.2.1 i).1.trans (dataOf_setGrad st root i 1),
      (hg.2.1 i).2.trans (opOf_setGrad st root i 1), ?_⟩
    rw [prevOf, prevOf, (hg.2.1 i).2, opOf_setGrad]
  · have h1 : gradOf st2 i = gradOf (setGrad st root 1) i := by
      refine hg.2.2 i (fun v hv => ?_)
      rw [opOf_setGrad]
      intro hmem
      have hvt : v ∈ (buildTopo st root).2 := List.mem_reverse.1 hv
      have hrv : Reach st root v := (hspec.2.1 v).1 hvt
      exact hri (Reach.step hrv ((mem_prevO_iff (opOf st v) i).2 hmem))
    rw [h1, gradOf_setGrad_ne st root i 1 (fun hroot => hri (hroot ▸ Reach.refl root))]

/-- C3 (amended): for every acyclic graph and chosen root, the sequence
recorded by `build_topo` contains each node reachable from the root
exactly once (and nothing else), every recorded node's parents appear
strictly before it, and — provided the reverse pass completes without an
exception — each recorded node's `_backward` rule runs exactly once
(the processed sequence is exactly the reversed record, in which each
recorded node occurs once). -/
theorem backward_traversal_props (st : St) (root : Nat) (hwf : WF st) :
    (∀ x, x ∈ (buildTopo st root).2 ↔ Reach st root x) ∧
    (buildTopo st root).2.Nodup ∧
    (∀ l1 i l2, (buildTopo st root).2 = l1 ++ i :: l2 → ∀ p ∈ prevOf st i, p ∈ l1) ∧
    (∀ i ∈ (buildTopo st root).2, ((buildTopo st root).2.reverse).count i = 1) ∧
    (∀ st2, backward st root = Except.ok st2 →
      invokedSeq (setGrad st root 1) (buildTopo st root).2.reverse
        = (buildTopo st root).2.reverse) := by
  have hspec := buildTopo_spec st root hwf
  refine ⟨hspec.2.1, hspec.1, hspec.2.2, fun i hi => ?_, fun st2 h2 => ?_⟩
  · exact List.count_eq_one_of_mem (List.nodup_reverse.2 hspec.1) (List.mem_reverse.2 hi)
  · exact invokedSeq_of_ok _ _ _ h2

/-- C1 is false as stated: dividing `Value(10)` by `Value(0)` does not
construct an output node — evaluating `0 ** -1` inside the `__pow__`
step of `__truediv__` raises `ZeroDivisionError` (Python numbers raise
here instead of producing an IEEE infinity). -/
theorem div_by_zero_cx :
    divVal [⟨10, 0, Op.leaf⟩, ⟨0, 0, Op.leaf⟩] 0 1
      = Except.error PyErr.zeroDivisionError := by
  simp [gradAfter, backward, buildTopo, dfsNode, prevOf, prevO, opOf, nodeOf, goBack, backStep, setGrad, addGrad, gradOf, dataOf, defaultNode, Except.map, pyPow, mkNode, addVal, mulVal, mulConstVal, valueNew, subVal, negVal, divVal, powVal, reluVal]

/-- C1 (amended): dividing a node `a` by an operand node `b` whose value
is exactly zero fails at the call: the power sub-step `b ** -1` raises
`ZeroDivisionError`, so no output node is constructed.  The divide
operation itself adds no guard; the failure is the native numeric
behaviour of the power step, left for the caller to catch. -/
theorem div_by_zero_raises (st : St) (a b : Nat) (h : dataOf st b = 0) :
    divVal st a b = Except.error PyErr.zeroDivisionError := by
  simp [divVal, powVal, pyPow, h]

theorem div_by_zero_raises_witness :
    divVal [⟨3, 0, Op.leaf⟩, ⟨0, 0, Op.leaf⟩] 0 1
      = Except.error PyErr.zeroDivisionError :=
  div_by_zero_raises _ 0 1 (by simp [dataOf, nodeOf, defaultNode])

/-- C2: for a leaf `x` holding any value, `y = x + x` stores `x` only
once in the set-valued parent collection `_prev`, yet backward from `y`
leaves `x.grad = 2` (not 1), because the addition closure adds
`out.grad` once for `self` and once for `other`, both bound to `x`. -/
theorem fanout_add_same_node (d : Rat) :
    (addVal [⟨d, 0, Op.leaf⟩] 0 0).1 = 1 ∧
    prevOf (addVal [⟨d, 0, Op.leaf⟩] 0 0).2 1 = [0] ∧
    gradAfter (addVal [⟨d, 0, Op.leaf⟩] 0 0).2 1 0 = Except.ok 2 := by
  refine ⟨rfl, ?_, ?_⟩
  · simp [gradAfter, backward, buildTopo, dfsNode, prevOf, prevO, opOf, nodeOf, goBack, backStep, setGrad, addGrad, gradOf, dataOf, defaultNode, Except.map, pyPow, mkNode, addVal, mulVal, mulConstVal, valueNew, subVal, negVal, divVal, powVal, reluVal]
  · simp [gradAfter, backward, buildTopo, dfsNode, prevOf, prevO, opOf, nodeOf, goBack, backStep, setGrad, addGrad, gradOf, dataOf, defaultNode, Except.map, pyPow, mkNode, addVal, mulVal, mulConstVal, valueNew, subVal, negVal, divVal, powVal, reluVal] <;> norm_num

/-- C4 is false as stated for arbitrary nodes: with the leaf `x = 2` and
`b = x + x` (value 4), backward from `x * b` leaves `x.grad = 8`, not
`b.value = 4`, because `b`'s own backward rule adds two further
contributions into `x.grad`. -/
theorem mul_backward_cx :
    addVal [⟨2, 0, Op.leaf⟩] 0 0 = (1, [⟨2, 0, Op.leaf⟩, ⟨4, 0, Op.add 0 0⟩]) ∧
    mulVal [⟨2, 0, Op.leaf⟩, ⟨4, 0, Op.add 0 0⟩] 0 1
      = (2, [⟨2, 0, Op.leaf⟩, ⟨4, 0, Op.add 0 0⟩, ⟨8, 0, Op.mul 0 1⟩]) ∧
    dataOf [⟨2, 0, Op.leaf⟩, ⟨4, 0, Op.add 0 0⟩, ⟨8, 0, Op.mul 0 1⟩] 1 = 4 ∧
    gradAfter [⟨2, 0, Op.leaf⟩, ⟨4, 0, Op.add 0 0⟩, ⟨8, 0, Op.mul 0 1⟩] 2 0
      = Except.ok 8 := by
  refine ⟨?_, ?_, ?_, ?_⟩
  · simp [gradAfter, backward, buildTopo, dfsNode, prevOf, prevO, opOf, nodeOf, goBack, backStep, setGrad, addGrad, gradOf, dataOf, defaultNode, Except.map, pyPow, mkNode, addVal, mulVal, mulConstVal, valueNew, subVal, negVal, divVal, powVal, reluVal] <;> norm_num
  · simp [gradAfter, backward, buildTopo, dfsNode, prevOf, prevO, opOf, nodeOf, goBack, backStep, setGrad, addGrad, gradOf, dataOf, defaultNode, Except.map, pyPow, mkNode, addVal, mulVal, mulConstVal, valueNew, subVal, negVal, divVal, powVal, reluVal] <;> norm_num
  · simp [gradAfter, backward, buildTopo, dfsNode, prevOf, prevO, opOf, nodeOf, goBack, backStep, setGrad, addGrad, gradOf, dataOf, defaultNode, Except.map, pyPow, mkNode, addVal, mulVal, mulConstVal, valueNew, subVal, negVal, divVal, powVal, reluVal]
  · simp [gradAfter, backward, buildTopo, dfsNode, prevOf, prevO, opOf, nodeOf, goBack, backStep, setGrad, addGrad, gradOf, dataOf, defaultNode, Except.map, pyPow, mkNode, addVal, mulVal, mulConstVal, valueNew, subVal, negVal, divVal, powVal, reluVal] <;> norm_num

/-- C4 (amended to independent operands, here two fresh leaves): for all
values, backward from `x * y` yields `x.grad = y.value` and
`y.grad = x.value`; in particular `x = 2, y = 3` gives product value 6
and gradients 3 and 2. -/
theorem mul_backward_leaves (va vb : Rat) :
    (mulVal [⟨va, 0, Op.leaf⟩, ⟨vb, 0, Op.leaf⟩] 0 1).1 = 2 ∧
    dataOf (mulVal [⟨va, 0, Op.leaf⟩, ⟨vb, 0, Op.leaf⟩] 0 1).2 2 = va * vb ∧
    gradAfter (mulVal [⟨va, 0, Op.leaf⟩, ⟨vb, 0, Op.leaf⟩] 0 1).2 2 0 = Except.ok vb ∧
    gradAfter (mulVal [⟨va, 0, Op.leaf⟩, ⟨vb, 0, Op.leaf⟩] 0 1).2 2 1 = Except.ok va := by
  refine ⟨rfl, ?_, ?_, ?_⟩
  · simp [gradAfter, backward, buildTopo, dfsNode, prevOf, prevO, opOf, nodeOf, goBack, backStep, setGrad, addGrad, gradOf, dataOf, defaultNode, Except.map, pyPow, mkNode, addVal, mulVal, mulConstVal, valueNew, subVal, negVal, divVal, powVal, reluVal]
  · simp [gradAfter, backward, buildTopo, dfsNode, prevOf, prevO, opOf, nodeOf, goBack, backStep, setGrad, addGrad, gradOf, dataOf, defaultNode, Except.map, pyPow, mkNode, addVal, mulVal, mulConstVal, valueNew, subVal, negVal, divVal, powVal, reluVal]
  · simp [gradAfter, backward, buildTopo, dfsNode, prevOf, prevO, opOf, nodeOf, goBack, backStep, setGrad, addGrad, gradOf, dataOf, defaultNode, Except.map, pyPow, mkNode, addVal, mulVal, mulConstVal, valueNew, subVal, negVal, divVal, powVal, reluVal]

/-- C5 is false as stated: with `a = Value(0)` and the plain numeric
exponent `-1`, the power operation does not construct a node at all —
`0 ** -1` raises `ZeroDivisionError`. -/
theorem pow_zero_base_cx :
    powVal [⟨0, 0, Op.leaf⟩] 0 (PowExp.num (-1))
      = Except.error PyErr.zeroDivisionError := by
  simp [gradAfter, backward, buildTopo, dfsNode, prevOf, prevO, opOf, nodeOf, goBack, backStep, setGrad, addGrad, gradOf, dataOf, defaultNode, Except.map, pyPow, mkNode, addVal, mulVal, mulConstVal, valueNew, subVal, negVal, divVal, powVal, reluVal]

/-- C5 (amended): for a leaf `a` and integer exponent `k` such that the
powers involved are defined (`a.value ≠ 0`, or `k ≥ 1`), `a ** k`
constructs a node of value `a.value ^ k` whose single parent is `a`,
and backward from it yields `a.grad = k * a.value ^ (k - 1)`.  When
`a.value = 0` and `k < 0` the call raises, and when `a.value = 0` and
`k = 0` the backward pass raises (both from `0 ** (negative)`). -/
theorem pow_backward (va : Rat) (k : Int) (h : va ≠ 0 ∨ 1 ≤ k) :
    powVal [⟨va, 0, Op.leaf⟩] 0 (PowExp.num k)
      = Except.ok (1, [⟨va, 0, Op.leaf⟩, ⟨va ^ k, 0, Op.pow 0 k⟩]) ∧
    prevOf [⟨va, 0, Op.leaf⟩, ⟨va ^ k, 0, Op.pow 0 k⟩] 1 = [0] ∧
    gradAfter [⟨va, 0, Op.leaf⟩, ⟨va ^ k, 0, Op.pow 0 k⟩] 1 0
      = Except.ok (k * va ^ (k - 1)) := by
  have hc0 : ¬(va = 0 ∧ k < 0) := by
    rintro ⟨h0, hneg⟩
    rcases h with h | h
    · exact h h0
    · omega
  have hc1 : ¬(va = 0 ∧ k < 1) := by
    rintro ⟨h0, hk1⟩
    rcases h with h | h
    · exact h h0
    · omega
  refine ⟨?_, ?_, ?_⟩
  · simp [powVal, pyPow, dataOf, nodeOf, defaultNode, mkNode, hc0]
  · simp [gradAfter, backward, buildTopo, dfsNode, prevOf, prevO, opOf, nodeOf, goBack, backStep, setGrad, addGrad, gradOf, dataOf, defaultNode, Except.map, pyPow, mkNode, addVal, mulVal, mulConstVal, valueNew, subVal, negVal, divVal, powVal, reluVal]
  · simp [gradAfter, backward, buildTopo, dfsNode, prevOf, prevO, opOf, nodeOf, goBack, backStep, setGrad, addGrad, gradOf, dataOf, defaultNode, Except.map, pyPow, mkNode, addVal, mulVal, mulConstVal, valueNew, subVal, negVal, divVal, powVal, reluVal, hc1]

theorem pow_backward_witness :
    powVal [⟨2, 0, Op.leaf⟩] 0 (PowExp.num 2)
      = Except.ok (1, [⟨2, 0, Op.leaf⟩, ⟨(2 : Rat) ^ (2 : Int), 0, Op.pow 0 2⟩]) ∧
    gradAfter [⟨2, 0, Op.leaf⟩, ⟨(2 : Rat) ^ (2 : Int), 0, Op.pow 0 2⟩] 1 0
      = Except.ok (2 * (2 : Rat) ^ ((2 : Int) - 1)) :=
  ⟨(pow_backward 2 2 (Or.inl (by norm_num))).1,
    (pow_backward 2 2 (Or.inl (by norm_num))).2.2⟩

/-- C6: the composite operations are literally compositions of the
primitives — negate is multiply by a wrapped `-1`, subtract is add of
the negation, divide is multiply by the `-1` power — and the composition
realises the direct derivative rules: subtraction of two fresh leaves
has value `a - b` and backward gradients `1` and `-1`; for
`x = 10, y = 5`, `x / y` has value `2` and backward gradients
`1/5` (0.2) on `x` and `-2/5` (-0.4) on `y`. -/
theorem composite_ops (va vb : Rat) :
    (∀ (st : St) (a : Nat), negVal st a = mulConstVal st a (-1)) ∧
    (∀ (st : St) (a b : Nat),
      subVal st a b = addVal (negVal st b).2 a (negVal st b).1) ∧
    (∀ (st : St) (a b : Nat), divVal st a b
      = Except.map (fun p => mulVal p.2 a p.1) (powVal st b (PowExp.num (-1)))) ∧
    dataOf (subVal [⟨va, 0, Op.leaf⟩, ⟨vb, 0, Op.leaf⟩] 0 1).2 4 = va - vb ∧
    gradAfter (subVal [⟨va, 0, Op.leaf⟩, ⟨vb, 0, Op.leaf⟩] 0 1).2 4 0 = Except.ok 1 ∧
    gradAfter (subVal [⟨va, 0, Op.leaf⟩, ⟨vb, 0, Op.leaf⟩] 0 1).2 4 1 = Except.ok (-1) ∧
    divVal [⟨10, 0, Op.leaf⟩, ⟨5, 0, Op.leaf⟩] 0 1
      = Except.ok (3, [⟨10, 0, Op.leaf⟩, ⟨5, 0, Op.leaf⟩,
        ⟨1/5, 0, Op.pow 1 (-1)⟩, ⟨2, 0, Op.mul 0 2⟩]) ∧
    gradAfter [⟨10, 0, Op.leaf⟩, ⟨5, 0, Op.leaf⟩,
      ⟨1/5, 0, Op.pow 1 (-1)⟩, ⟨2, 0, Op.mul 0 2⟩] 3 0 = Except.ok (1/5) ∧
    gradAfter [⟨10, 0, Op.leaf⟩, ⟨5, 0, Op.leaf⟩,
      ⟨1/5, 0, Op.pow 1 (-1)⟩, ⟨2, 0, Op.mul 0 2⟩] 3 1 = Except.ok (-2/5) := by
  refine ⟨fun st a => rfl, fun st a b => rfl, fun st a b => ?_, ?_, ?_, ?_, ?_, ?_, ?_⟩
  · rcases hp : powVal st b (PowExp.num (-1)) with e | p <;> simp [divVal, hp, Except.map]
  · simp [gradAfter, backward, buildTopo, dfsNode, prevOf, prevO, opOf, nodeOf, goBack, backStep, setGrad, addGrad, gradOf, dataOf, defaultNode, Except.map, pyPow, mkNode, addVal, mulVal, mulConstVal, valueNew, subVal, negVal, divVal, powVal, reluVal]
    ring
  · simp [gradAfter, backward, buildTopo, dfsNode, prevOf, prevO, opOf, nodeOf, goBack, backStep, setGrad, addGrad, gradOf, dataOf, defaultNode, Except.map, pyPow, mkNode, addVal, mulVal, mulConstVal, valueNew, subVal, negVal, divVal, powVal, reluVal]
  · simp [gradAfter, backward, buildTopo, dfsNode, prevOf, prevO, opOf, nodeOf, goBack, backStep, setGrad, addGrad, gradOf, dataOf, defaultNode, Except.map, pyPow, mkNode, addVal, mulVal, mulConstVal, valueNew, subVal, negVal, divVal, powVal, reluVal]
  · simp [gradAfter, backward, buildTopo, dfsNode, prevOf, prevO, opOf, nodeOf, goBack, backStep, setGrad, addGrad, gradOf, dataOf, defaultNode, Except.map, pyPow, mkNode, addVal, mulVal, mulConstVal, valueNew, subVal, negVal, divVal, powVal, reluVal] <;> norm_num
  · simp [gradAfter, backward, buildTopo, dfsNode, prevOf, prevO, opOf, nodeOf, goBack, backStep, setGrad, addGrad, gradOf, dataOf, defaultNode, Except.map, pyPow, mkNode, addVal, mulVal, mulConstVal, valueNew, subVal, negVal, divVal, powVal, reluVal]
  · simp [gradAfter, backward, buildTopo, dfsNode, prevOf, prevO, opOf, nodeOf, goBack, backStep, setGrad, addGrad, gradOf, dataOf, defaultNode, Except.map, pyPow, mkNode, addVal, mulVal, mulConstVal, valueNew, subVal, negVal, divVal, powVal, reluVal] <;> norm_num

/-- C7 is false in its second half: `0 ** -2` with a plain `int`
exponent does not succeed — it raises `ZeroDivisionError`. -/
theorem pow_int_exponent_cx :
    powVal [⟨0, 0, Op.leaf⟩] 0 (PowExp.num (-2))
      = Except.error PyErr.zeroDivisionError := by
  simp [gradAfter, backward, buildTopo, dfsNode, prevOf, prevO, opOf, nodeOf, goBack, backStep, setGrad, addGrad, gradOf, dataOf, defaultNode, Except.map, pyPow, mkNode, addVal, mulVal, mulConstVal, valueNew, subVal, negVal, divVal, powVal, reluVal]

/-- C7 (amended): the power operation rejects a node exponent at call
time with `AssertionError` before any node is constructed or any field
mutated (in this functional embedding no state is produced at all); a
plain numeric exponent succeeds and appends exactly one node — unless
the base value is zero and the exponent negative, in which case the
forward power itself raises `ZeroDivisionError`. -/
theorem pow_exponent_check (st : St) (a : Nat) :
    (∀ j, powVal st a (PowExp.node j) = Except.error PyErr.assertionError) ∧
    (∀ k : Int, ¬(dataOf st a = 0 ∧ k < 0) →
      powVal st a (PowExp.num k)
        = Except.ok (st.length, st ++ [⟨dataOf st a ^ k, 0, Op.pow a k⟩])) := by
  refine ⟨fun j => rfl, fun k hk => ?_⟩
  simp only [powVal, pyPow, if_neg hk, mkNode]

theorem pow_exponent_check_witness :
    powVal [⟨3, 0, Op.leaf⟩] 0 (PowExp.node 5) = Except.error PyErr.assertionError ∧
    powVal [⟨3, 0, Op.leaf⟩] 0 (PowExp.num 2)
      = Except.ok (1, [⟨3, 0, Op.leaf⟩, ⟨(3 : Rat) ^ (2 : Int), 0, Op.pow 0 2⟩]) :=
  ⟨(pow_exponent_check _ 0).1 5,
    (pow_exponent_check _ 0).2 2 (by simp [dataOf, nodeOf, defaultNode])⟩

/-- C8: `relu` constructs a node of value `max(0, a.value)` with parent
`a`, and backward from it gives `a.grad = 0` for a negative input and
`a.grad = 1` for a positive input (the rule multiplies by the indicator
`out.data > 0`). -/
theorem relu_backward (va : Rat) :
    dataOf (reluVal [⟨va, 0, Op.leaf⟩] 0).2 1 = max 0 va ∧
    (va < 0 → gradAfter (reluVal [⟨va, 0, Op.leaf⟩] 0).2 1 0 = Except.ok 0) ∧
    (0 < va → gradAfter (reluVal [⟨va, 0, Op.leaf⟩] 0).2 1 0 = Except.ok 1) := by
  refine ⟨?_, fun h => ?_, fun h => ?_⟩
  · rcases le_or_lt 0 va with h | h
    · simp [gradAfter, backward, buildTopo, dfsNode, prevOf, prevO, opOf, nodeOf, goBack, backStep, setGrad, addGrad, gradOf, dataOf, defaultNode, Except.map, pyPow, mkNode, addVal, mulVal, mulConstVal, valueNew, subVal, negVal, divVal, powVal, reluVal, if_neg (not_lt.2 h), max_eq_right h]
    · simp [gradAfter, backward, buildTopo, dfsNode, prevOf, prevO, opOf, nodeOf, goBack, backStep, setGrad, addGrad, gradOf, dataOf, defaultNode, Except.map, pyPow, mkNode, addVal, mulVal, mulConstVal, valueNew, subVal, negVal, divVal, powVal, reluVal, if_pos h, max_eq_left h.le]
  · simp [gradAfter, backward, buildTopo, dfsNode, prevOf, prevO, opOf, nodeOf, goBack, backStep, setGrad, addGrad, gradOf, dataOf, defaultNode, Except.map, pyPow, mkNode, addVal, mulVal, mulConstVal, valueNew, subVal, negVal, divVal, powVal, reluVal, if_pos h]
  · simp [gradAfter, backward, buildTopo, dfsNode, prevOf, prevO, opOf, nodeOf, goBack, backStep, setGrad, addGrad, gradOf, dataOf, defaultNode, Except.map, pyPow, mkNode, addVal, mulVal, mulConstVal, valueNew, subVal, negVal, divVal, powVal, reluVal, if_neg (not_lt.2 h.le), if_pos h]

theorem relu_backward_witness :
    dataOf (reluVal [⟨-2, 0, Op.leaf⟩] 0).2 1 = max 0 (-2) ∧
    gradAfter (reluVal [⟨-2, 0, Op.leaf⟩] 0).2 1 0 = Except.ok 0 :=
  ⟨(relu_backward (-2)).1, (relu_backward (-2)).2.1 (by norm_num)⟩

/-- C9: a `_backward` rule only accumulates into the gradients of the
operands its closure captured (first conjunct: all other gradients are
left exactly as they were — nothing is overwritten); consequently a
second `backward` call from the same root without a reset accumulates on
top of the first: for leaves `x, y` and `z = x * y`, the first call
leaves `x.grad = y.value` with the seeded root at 1, and the second
leaves `x.grad = 2 * y.value` and `y.grad = 2 * x.value`, the root's
gradient again 1 because the seed assignment overwrites it. -/
theorem grad_accumulation (va vb : Rat) :
    (∀ (st : St) (v : Nat) (st2 : St), backStep st v = Except.ok st2 →
      ∀ i, i ∉ prevDup (opOf st v) → gradOf st2 i = gradOf st i) ∧
    backward [⟨va, 0, Op.leaf⟩, ⟨vb, 0, Op.leaf⟩, ⟨va * vb, 0, Op.mul 0 1⟩] 2
      = Except.ok [⟨va, vb, Op.leaf⟩, ⟨vb, va, Op.leaf⟩, ⟨va * vb, 1, Op.mul 0 1⟩] ∧
    gradAfter [⟨va, vb, Op.leaf⟩, ⟨vb, va, Op.leaf⟩, ⟨va * vb, 1, Op.mul 0 1⟩] 2 0
      = Except.ok (2 * vb) ∧
    gradAfter [⟨va, vb, Op.leaf⟩, ⟨vb, va, Op.leaf⟩, ⟨va * vb, 1, Op.mul 0 1⟩] 2 1
      = Except.ok (2 * va) ∧
    gradAfter [⟨va, vb, Op.leaf⟩, ⟨vb, va, Op.leaf⟩, ⟨va * vb, 1, Op.mul 0 1⟩] 2 2
      = Except.ok 1 := by
  refine ⟨fun st v st2 h i hi => backStep_grad_off h i hi, ?_, ?_, ?_, ?_⟩
  · simp [gradAfter, backward, buildTopo, dfsNode, prevOf, prevO, opOf, nodeOf, goBack, backStep, setGrad, addGrad, gradOf, dataOf, defaultNode, Except.map, pyPow, mkNode, addVal, mulVal, mulConstVal, valueNew, subVal, negVal, divVal, powVal, reluVal]
  · simp [gradAfter, backward, buildTopo, dfsNode, prevOf, prevO, opOf, nodeOf, goBack, backStep, setGrad, addGrad, gradOf, dataOf, defaultNode, Except.map, pyPow, mkNode, addVal, mulVal, mulConstVal, valueNew, subVal, negVal, divVal, powVal, reluVal]
    ring
  · simp [gradAfter, backward, buildTopo, dfsNode, prevOf, prevO, opOf, nodeOf, goBack, backStep, setGrad, addGrad, gradOf, dataOf, defaultNode, Except.map, pyPow, mkNode, addVal, mulVal, mulConstVal, valueNew, subVal, negVal, divVal, powVal, reluVal]
    ring
  · simp [gradAfter, backward, buildTopo, dfsNode, prevOf, prevO, opOf, nodeOf, goBack, backStep, setGrad, addGrad, gradOf, dataOf, defaultNode, Except.map, pyPow, mkNode, addVal, mulVal, mulConstVal, valueNew, subVal, negVal, divVal, powVal, reluVal]

theorem grad_accumulation_witness :
    backward [⟨2, 0, Op.leaf⟩, ⟨3, 0, Op.leaf⟩, ⟨2 * 3, 0, Op.mul 0 1⟩] 2
      = Except.ok [⟨2, 3, Op.leaf⟩, ⟨3, 2, Op.leaf⟩, ⟨2 * 3, 1, Op.mul 0 1⟩] ∧
    gradAfter [⟨2, 3, Op.leaf⟩, ⟨3, 2, Op.leaf⟩, ⟨2 * 3, 1, Op.mul 0 1⟩] 2 0
      = Except.ok (2 * 3) ∧
    gradOf [⟨7, 4, Op.leaf⟩] 0 = gradOf [⟨7, 4, Op.leaf⟩] 0 :=
  ⟨(grad_accumulation 2 3).2.1, (grad_accumulation 2 3).2.2.1,
    (grad_accumulation 2 3).1 [⟨7, 4, Op.leaf⟩] 0 [⟨7, 4, Op.leaf⟩] rfl 0
      (by simp [prevDup, opOf, nodeOf, defaultNode])⟩

/-- C3 is false as stated in its "invoked exactly once" clause: in the
acyclic two-node graph `x = Value(0)`, `z = x ** 0` (constructible,
since `0 ** 0 = 1`), the reverse pass aborts when `z`'s rule raises
`ZeroDivisionError` (its derivative computes `0 ** -1`), so the
recorded node `x`'s rule is never invoked. -/
theorem backward_abort_cx :
    powVal [⟨0, 0, Op.leaf⟩] 0 (PowExp.num 0)
      = Except.ok (1, [⟨0, 0, Op.leaf⟩, ⟨1, 0, Op.pow 0 0⟩]) ∧
    (buildTopo [⟨0, 0, Op.leaf⟩, ⟨1, 0, Op.pow 0 0⟩] 1).2.reverse = [1, 0] ∧
    invokedSeq (setGrad [⟨0, 0, Op.leaf⟩, ⟨1, 0, Op.pow 0 0⟩] 1 1) [1, 0] = [1] ∧
    backward [⟨0, 0, Op.leaf⟩, ⟨1, 0, Op.pow 0 0⟩] 1
      = Except.error PyErr.zeroDivisionError := by
  refine ⟨?_, ?_, ?_, ?_⟩
  · simp [gradAfter, backward, buildTopo, dfsNode, prevOf, prevO, opOf, nodeOf, goBack, backStep, setGrad, addGrad, gradOf, dataOf, defaultNode, Except.map, pyPow, mkNode, addVal, mulVal, mulConstVal, valueNew, subVal, negVal, divVal, powVal, reluVal]
  · simp [gradAfter, backward, buildTopo, dfsNode, prevOf, prevO, opOf, nodeOf, goBack, backStep, setGrad, addGrad, gradOf, dataOf, defaultNode, Except.map, pyPow, mkNode, addVal, mulVal, mulConstVal, valueNew, subVal, negVal, divVal, powVal, reluVal]
  · simp [invokedSeq, gradAfter, backward, buildTopo, dfsNode, prevOf, prevO, opOf, nodeOf, goBack, backStep, setGrad, addGrad, gradOf, dataOf, defaultNode, Except.map, pyPow, mkNode, addVal, mulVal, mulConstVal, valueNew, subVal, negVal, divVal, powVal, reluVal]
  · simp [gradAfter, backward, buildTopo, dfsNode, prevOf, prevO, opOf, nodeOf, goBack, backStep, setGrad, addGrad, gradOf, dataOf, defaultNode, Except.map, pyPow, mkNode, addVal, mulVal, mulConstVal, valueNew, subVal, negVal, divVal, powVal, reluVal]

theorem backward_traversal_props_witness :
    (buildTopo [⟨2, 0, Op.leaf⟩, ⟨3, 0, Op.leaf⟩, ⟨6, 0, Op.mul 0 1⟩] 2).2.Nodup ∧
    ((buildTopo [⟨2, 0, Op.leaf⟩, ⟨3, 0, Op.leaf⟩, ⟨6, 0, Op.mul 0 1⟩] 2).2.reverse).count 2
      = 1 ∧
    (0 ∈ (buildTopo [⟨2, 0, Op.leaf⟩, ⟨3, 0, Op.leaf⟩, ⟨6, 0, Op.mul 0 1⟩] 2).2 ↔
      Reach [⟨2, 0, Op.leaf⟩, ⟨3, 0, Op.leaf⟩, ⟨6, 0, Op.mul 0 1⟩] 2 0) := by
  have h := backward_traversal_props
    [⟨2, 0, Op.leaf⟩, ⟨3, 0, Op.leaf⟩, ⟨6, 0, Op.mul 0 1⟩] 2 (by decide)
  exact ⟨h.2.1, h.2.2.2.1 2 (by decide), h.1 0⟩

theorem backward_mutates_only_gradients_witness :
    backward [⟨2, 0, Op.leaf⟩, ⟨3, 0, Op.leaf⟩, ⟨6, 0, Op.mul 0 1⟩, ⟨7, 5, Op.leaf⟩] 2
      = Except.ok [⟨2, 3, Op.leaf⟩, ⟨3, 2, Op.leaf⟩, ⟨6, 1, Op.mul 0 1⟩, ⟨7, 5, Op.leaf⟩] ∧
    dataOf [⟨2, 3, Op.leaf⟩, ⟨3, 2, Op.leaf⟩, ⟨6, 1, Op.mul 0 1⟩, ⟨7, 5, Op.leaf⟩] 3
      = dataOf [⟨2, 0, Op.leaf⟩, ⟨3, 0, Op.leaf⟩, ⟨6, 0, Op.mul 0 1⟩, ⟨7, 5, Op.leaf⟩] 3 ∧
    gradOf [⟨2, 3, Op.leaf⟩, ⟨3, 2, Op.leaf⟩, ⟨6, 1, Op.mul 0 1⟩, ⟨7, 5, Op.leaf⟩] 3
      = gradOf [⟨2, 0, Op.leaf⟩, ⟨3, 0, Op.leaf⟩, ⟨6, 0, Op.mul 0 1⟩, ⟨7, 5, Op.leaf⟩] 3 := by
  have hbk : backward [⟨2, 0, Op.leaf⟩, ⟨3, 0, Op.leaf⟩, ⟨6, 0, Op.mul 0 1⟩, ⟨7, 5, Op.leaf⟩] 2
      = Except.ok [⟨2, 3, Op.leaf⟩, ⟨3, 2, Op.leaf⟩, ⟨6, 1, Op.mul 0 1⟩, ⟨7, 5, Op.leaf⟩] := by
    simp [gradAfter, backward, buildTopo, dfsNode, prevOf, prevO, opOf, nodeOf, goBack, backStep, setGrad, addGrad, gradOf, dataOf, defaultNode, Except.map, pyPow, mkNode, addVal, mulVal, mulConstVal, valueNew, subVal, negVal, divVal, powVal, reluVal]
  have h := backward_mutates_only_gradients _ 2 _ (by decide) hbk
  refine ⟨hbk, (h.2.1 3).1, h.2.2 3 (fun hr => ?_)⟩
  have h3 := reach_le _ (by decide) hr
  omega

end Micrograd
